import Mathlib

/-!
Verification of the consensus-critical core of the federated mint:
the transaction model with its funding and signature validation
(mint-api/src/transaction.rs) and the canonical binary encoding
(mint-api/src/encoding.rs).

Modelling conventions:
* machine integers (u64, usize) are modelled as `Nat`; where the code
  truncates to a fixed width the model takes the value modulo 2 ^ 64
  through the little-endian byte extraction;
* a Rust writer is modelled by returning the written bytes explicitly:
  an encoder maps a value to the pair (bytes written, reported length),
  exactly mirroring what `consensus_encode` writes to the sink and the
  `usize` it returns;
* opaque cryptographic values (public keys, signatures, blinded
  messages) are fixed-length byte strings, per the specification rule
  that fixed-size cryptographic values have a canonical fixed-size
  compressed representation.
-/

namespace Fedimint

/-- Amount of the federation unit of value. Modelled from the spec: an
integer magnitude in the smallest unit, non-negative, summable and
total-ordered, so it embeds as `Nat`. -/
abbrev Amount := Nat

/-- Modelled from the spec: conversion from a Bitcoin satoshi count is
exact (no precision loss); the smallest federation unit is one
thousandth of a satoshi. -/
def Amount.from_sat (sat : Nat) : Amount := sat * 1000

/-- Modelled from the spec: a public key that must co-sign, an opaque
fixed-size cryptographic value (33-byte compressed point). -/
def PubKey := { l : List Nat // l.length = 33 }

instance : DecidableEq PubKey := fun a b =>
  decidable_of_iff (a.val = b.val) Subtype.ext_iff.symm

/-- Modelled from the spec: a single denomination-tiered e-cash note;
validation only ever consults its spend-authorization key. -/
structure Coin where
  spendKey : PubKey
deriving DecidableEq

/-- Modelled from the spec: a blinded message, a fixed-size (48-byte
compressed) cryptographic value, opaque to validation. -/
def BlindedMessage := { l : List Nat // l.length = 48 }

instance : DecidableEq BlindedMessage := fun a b =>
  decidable_of_iff (a.val = b.val) Subtype.ext_iff.symm

/-- Source: `struct BlindToken(pub tbs::BlindedMessage)`. -/
structure BlindToken where
  msg : BlindedMessage
deriving DecidableEq

/-- Modelled from the spec: `Coins<T>` is a tiered multiset, a mapping
from tier to an ordered sequence of T; here it is represented in its
flattened iteration order as a list of (tier, item) pairs, one pair per
coin unit, so the length of `coins` is the number of coin units in the
bundle and iteration yields each item with its tier. -/
structure Coins (T : Type) where
  coins : List (Amount × T)
deriving DecidableEq

/-- Modelled from the spec: the total amount of a tiered bundle is the
sum over all units of the tier value each belongs to. -/
def Coins.amount {T : Type} (cs : Coins T) : Amount :=
  (cs.coins.map Prod.fst).sum

/-- Modelled from the spec: a peg-in proof carries the value of the
locked Bitcoin transaction output (`tx_output().value`, in satoshi) and
the single tweaked contract key proving redemption rights. -/
structure PegInProof where
  txOutputValue : Nat
  tweakContractKey : PubKey
deriving DecidableEq

/-- Modelled from the spec: a Bitcoin output script, an opaque byte
string; recipients are committed to hash by their resolved output
script, not their address notation. -/
structure Script where
  raw : List Nat
deriving DecidableEq

/-- Source: `struct PegOut` with a recipient and a `bitcoin::Amount`
(satoshi count). The recipient is modelled directly by its resolved
output script, per the spec rule on addresses. -/
structure PegOut where
  recipient : Script
  amount : Nat
deriving DecidableEq

/-- Source: `enum Input` with variants `Coins(Coins<Coin>)` and
`PegIn(PegInProof)`. -/
inductive Input where
  | coins (c : Coins Coin)
  | pegIn (proof : PegInProof)
deriving DecidableEq

/-- Source: `enum Output` with variants `Coins(Coins<BlindToken>)` and
`PegOut(PegOut)`. -/
inductive Output where
  | coins (c : Coins BlindToken)
  | pegOut (p : PegOut)
deriving DecidableEq

/-- Modelled from the spec: the aggregate signature, a single opaque
fixed-size cryptographic value (modelled at 64 bytes). -/
def Sig := { l : List Nat // l.length = 64 }

instance : DecidableEq Sig := fun a b =>
  decidable_of_iff (a.val = b.val) Subtype.ext_iff.symm

/-- Source: `struct Transaction` with ordered inputs, ordered outputs
and one aggregate signature. -/
structure Transaction where
  inputs : List Input
  outputs : List Output
  signature : Sig

/-- Modelled from the spec: the federation-wide fee schedule with a
per-coin-spend fee, a per-peg-in fee and a per-peg-out fee. -/
structure FeeConsensus where
  fee_coin_spend_abs : Amount
  fee_peg_in_abs : Amount
  fee_peg_out_abs : Amount
deriving DecidableEq

/-- Source: `enum TransactionError` with `InsufficientlyFunded`
carrying the three computed sums, and `InvalidSignature` carrying no
further detail. -/
inductive TransactionError where
  | insufficientlyFunded (inputs : Amount) (outputs : Amount) (fee : Amount)
  | invalidSignature
deriving DecidableEq

/-- Source: `impl TransactionItem for Input`, `fn amount`: a Coins
input is worth its bundle amount; a PegIn input is worth
`Amount::from_sat(peg_in.tx_output().value)`. -/
def Input.amount : Input → Amount
  | .coins c => c.amount
  | .pegIn proof => Amount.from_sat proof.txOutputValue

/-- Source: `impl TransactionItem for Input`, `fn fee`: a Coins input
owes `fee_coin_spend_abs * (coins.coins.len() as u64)`; a PegIn input
owes the flat `fee_peg_in_abs`. -/
def Input.fee (i : Input) (fee_consensus : FeeConsensus) : Amount :=
  match i with
  | .coins c => fee_consensus.fee_coin_spend_abs * c.coins.length
  | .pegIn _ => fee_consensus.fee_peg_in_abs

/-- Source: `impl TransactionItem for Output`, `fn amount`: a Coins
output is worth its bundle amount; a PegOut output is worth the
requested Bitcoin amount converted exactly. -/
def Output.amount : Output → Amount
  | .coins c => c.amount
  | .pegOut p => Amount.from_sat p.amount

/-- Source: `impl TransactionItem for Output`, `fn fee`: a Coins output
owes `fee_coin_spend_abs * (coins.coins.len() as u64)`; a PegOut output
owes the flat `fee_peg_out_abs`. -/
def Output.fee (o : Output) (fee_consensus : FeeConsensus) : Amount :=
  match o with
  | .coins c => fee_consensus.fee_coin_spend_abs * c.coins.length
  | .pegOut _ => fee_consensus.fee_peg_out_abs

/-- Source: `Transaction::validate_funding`: sum the input amounts, the
output amounts and the fees of all inputs and outputs; accept iff
`in_amount >= out_amount + fee_amount`, otherwise reject with
`InsufficientlyFunded` carrying the three sums. -/
def Transaction.validate_funding (tx : Transaction)
    (fee_consensus : FeeConsensus) : Except TransactionError Unit :=
  let in_amount := (tx.inputs.map Input.amount).sum
  let out_amount := (tx.outputs.map Output.amount).sum
  let fee_amount := (tx.inputs.map (fun i => i.fee fee_consensus)).sum
    + (tx.outputs.map (fun o => o.fee fee_consensus)).sum
  if in_amount ≥ out_amount + fee_amount then
    Except.ok ()
  else
    Except.error (TransactionError.insufficientlyFunded in_amount out_amount fee_amount)

/-- Source: `Input::authorization_keys`: a Coins input yields the spend
key of every coin in its bundle, in iteration order; a PegIn input
yields the single tweaked contract key. -/
def Input.authorization_keys : Input → List PubKey
  | .coins c => c.coins.map (fun p => p.2.spendKey)
  | .pegIn proof => [proof.tweakContractKey]

/-! ## Canonical encoding

An encoder maps a value to the pair (bytes written, reported length):
the first component is exactly the byte sequence `consensus_encode`
writes to the sink and the second is the `usize` it returns. Byte
values are natural numbers below 256. -/

/-- Little-endian byte extraction: `toLEBytes w n` is the list of the
`w` low-order base-256 digits of `n`, low byte first, mirroring
`to_le_bytes` on a `w`-byte integer. -/
def toLEBytes : Nat → Nat → List Nat
  | 0, _ => []
  | w + 1, n => n % 256 :: toLEBytes w (n / 256)

/-- Little-endian byte recomposition, the inverse of `toLEBytes`. -/
def fromLEBytes : List Nat → Nat
  | [] => 0
  | b :: bs => b + 256 * fromLEBytes bs

/-- Source: `impl_encode_num!(u64)`: write `to_le_bytes` and report
`bytes.len()`. -/
def consensus_encode_u64 (n : Nat) : List Nat × Nat :=
  let bytes := toLEBytes 8 n
  (bytes, bytes.length)

/-- Helper for the slice encoder loop: encode each item in order,
concatenating the written bytes and accumulating the reported
lengths. -/
def consensus_encode_each {T : Type} (enc : T → List Nat × Nat) :
    List T → List Nat × Nat
  | [] => ([], 0)
  | x :: xs =>
    let e := enc x
    let r := consensus_encode_each enc xs
    (e.1 ++ r.1, e.2 + r.2)

/-- Source: `impl Encodable for &[T]`: encode `self.len() as u64`, then
each item in order, returning the accumulated reported length. -/
def consensus_encode_list {T : Type} (enc : T → List Nat × Nat)
    (xs : List T) : List Nat × Nat :=
  let c := consensus_encode_u64 xs.length
  let r := consensus_encode_each enc xs
  (c.1 ++ r.1, c.2 + r.2)

/-- Modelled from the spec: a public key is a fixed-size cryptographic
value whose canonical encoding is its compressed byte string; the
foreign serializer reports the number of bytes it wrote. -/
def PubKey.consensus_encode (k : PubKey) : List Nat × Nat :=
  (k.val, k.val.length)

/-- Modelled from the spec: the canonical encoding of a coin, an opaque
cryptographic payload delegated to foreign serializers; validation only
consults the spend key, so the coin encodes as that key. -/
def Coin.consensus_encode (c : Coin) : List Nat × Nat :=
  c.spendKey.consensus_encode

/-- Source: `impl Encodable for BlindToken`: write the 48-byte
compressed encoding of the blinded message and report 48. -/
def BlindToken.consensus_encode (t : BlindToken) : List Nat × Nat :=
  (t.msg.val, 48)

/-- Modelled from the spec: one (tier, item) pair of a tiered bundle
encodes as the tier value as a fixed-width integer followed by the
item. -/
def consensus_encode_tier_pair {T : Type} (enc : T → List Nat × Nat)
    (p : Amount × T) : List Nat × Nat :=
  let a := consensus_encode_u64 p.1
  let i := enc p.2
  (a.1 ++ i.1, a.2 + i.2)

/-- Modelled from the spec: a tiered bundle encodes by the sequence
rule, a count prefix followed by each (tier, item) pair in iteration
order. -/
def Coins.consensus_encode {T : Type} (enc : T → List Nat × Nat)
    (cs : Coins T) : List Nat × Nat :=
  consensus_encode_list (consensus_encode_tier_pair enc) cs.coins

/-- Modelled from the spec: a peg-in proof delegates to foreign
Bitcoin-ledger encodings; modelled as the locked output value as a
fixed-width integer followed by the tweaked contract key. -/
def PegInProof.consensus_encode (proof : PegInProof) : List Nat × Nat :=
  let v := consensus_encode_u64 proof.txOutputValue
  let k := proof.tweakContractKey.consensus_encode
  (v.1 ++ k.1, v.2 + k.2)

/-- Modelled from the spec: a script delegates to the foreign Bitcoin
consensus serializer, a self-delimiting encoding modelled as a
fixed-width length prefix followed by the script bytes; the foreign
serializer reports the number of bytes it wrote. -/
def Script.consensus_encode (s : Script) : List Nat × Nat :=
  let l := consensus_encode_u64 s.raw.length
  (l.1 ++ s.raw, l.2 + s.raw.length)

/-- Source: `impl Encodable for PegOut`: encode the recipient by its
output script (`recipient.script_pubkey()`), then the amount
(`bitcoin::Amount` encodes its satoshi count as a u64), summing the
reported lengths. -/
def PegOut.consensus_encode (p : PegOut) : List Nat × Nat :=
  let s := p.recipient.consensus_encode
  let a := consensus_encode_u64 p.amount
  (s.1 ++ a.1, s.2 + a.2)

/-- Source: `impl Encodable for Input`: write discriminant byte 0x00
(Coins) or 0x01 (PegIn), then the variant payload encoding, reporting
the payload length plus one. -/
def Input.consensus_encode : Input → List Nat × Nat
  | .coins c =>
    let e := c.consensus_encode Coin.consensus_encode
    (0 :: e.1, e.2 + 1)
  | .pegIn proof =>
    let e := proof.consensus_encode
    (1 :: e.1, e.2 + 1)

/-- Source: `impl Encodable for Output`: write discriminant byte 0x00
(Coins) or 0x01 (PegOut), then the variant payload encoding, reporting
the payload length plus one. -/
def Output.consensus_encode : Output → List Nat × Nat
  | .coins c =>
    let e := c.consensus_encode BlindToken.consensus_encode
    (0 :: e.1, e.2 + 1)
  | .pegOut p =>
    let e := p.consensus_encode
    (1 :: e.1, e.2 + 1)

/-- Modelled from the spec: the aggregate signature is a fixed-size
cryptographic value encoding as its canonical byte string. -/
def Sig.consensus_encode (s : Sig) : List Nat × Nat :=
  (s.val, s.val.length)

/-- Modelled from the spec: a transaction encodes as its input
sequence, its output sequence and its signature, each by the standard
rules. -/
def Transaction.consensus_encode (tx : Transaction) : List Nat × Nat :=
  let i := consensus_encode_list Input.consensus_encode tx.inputs
  let o := consensus_encode_list Output.consensus_encode tx.outputs
  let s := tx.signature.consensus_encode
  (i.1 ++ o.1 ++ s.1, i.2 + o.2 + s.2)

/-! ## Transaction identity -/

/-- Identity of a transaction. The hash function itself is an external
collaborator (a fixed digest of the fed byte stream), so the identity
is modelled by the exact byte stream fed to the hash engine, which
determines the digest. -/
structure TransactionId where
  stream : List Nat
deriving DecidableEq

/-- Source: `Transaction::tx_hash_from_parts`: feed the consensus
encoding of the input slice, then of the output slice, in that order,
into a fresh hash engine and finalize. -/
def Transaction.tx_hash_from_parts (inputs : List Input)
    (outputs : List Output) : TransactionId :=
  TransactionId.mk
    ((consensus_encode_list Input.consensus_encode inputs).1
      ++ (consensus_encode_list Output.consensus_encode outputs).1)

/-- Source: `Transaction::tx_hash`: the hash of the transaction
excluding the signature, via `tx_hash_from_parts` on its own inputs and
outputs. -/
def Transaction.tx_hash (tx : Transaction) : TransactionId :=
  Transaction.tx_hash_from_parts tx.inputs tx.outputs

/-- Source: `Transaction::validate_signature`: collect the
authorization keys of every input in order, verify the single aggregate
signature against the transaction hash and that key list through the
external `musig::verify` capability (passed here as a parameter),
accept iff it returns true, otherwise reject with `InvalidSignature`. -/
def Transaction.validate_signature
    (verify : List Nat → Sig → List PubKey → Bool)
    (tx : Transaction) : Except TransactionError Unit :=
  let public_keys := (tx.inputs.map Input.authorization_keys).flatten
  if verify tx.tx_hash.stream tx.signature public_keys then
    Except.ok ()
  else
    Except.error TransactionError.invalidSignature

/-! ## Canonical decoding

Modelled from the spec: the repository only declares the `Decodable`
capability in src (`consensus_decode(d) -> Result<Self, DecodeError>`);
the decoders themselves are modelled from the spec rules: fixed-width
little-endian integers, count-prefixed sequences, one discriminant byte
per sum type with unknown discriminants rejected, truncated input
rejected. A decoder consumes a prefix of the byte list and returns the
value together with the unconsumed tail. -/

/-- Source: `struct DecodeError`, carrying a descriptive message or a
wrapped lower-level cause, modelled by the message. -/
structure DecodeError where
  msg : String

/-- Decode failure for truncated input. -/
def DecodeError.truncated : DecodeError :=
  DecodeError.mk "unexpected end of input"

/-- Decode failure for an unknown enum discriminant byte. -/
def DecodeError.badVariant : DecodeError :=
  DecodeError.mk "unknown enum variant discriminant"

/-- Read exactly `n` bytes off the front of the input, failing on
truncated input. -/
def readBytes (n : Nat) (bs : List Nat) :
    Except DecodeError (List Nat × List Nat) :=
  if n ≤ bs.length then Except.ok (bs.take n, bs.drop n)
  else Except.error DecodeError.truncated

/-- Read exactly `n` bytes off the front of the input together with the
proof that `n` bytes were read. -/
def readFixed (n : Nat) (bs : List Nat) :
    Except DecodeError ({ l : List Nat // l.length = n } × List Nat) :=
  if h : n ≤ bs.length then
    Except.ok (⟨bs.take n, by simp [List.length_take]; omega⟩, bs.drop n)
  else Except.error DecodeError.truncated

/-- Modelled from the spec: decode a fixed-width little-endian u64. -/
def consensus_decode_u64 (bs : List Nat) :
    Except DecodeError (Nat × List Nat) := do
  let (h, t) ← readBytes 8 bs
  Except.ok (fromLEBytes h, t)

/-- Decode `n` consecutive values with the given element decoder. -/
def consensus_decode_many {T : Type}
    (dec : List Nat → Except DecodeError (T × List Nat)) :
    Nat → List Nat → Except DecodeError (List T × List Nat)
  | 0, bs => Except.ok ([], bs)
  | n + 1, bs => do
    let (x, r) ← dec bs
    let (xs, t) ← consensus_decode_many dec n r
    Except.ok (x :: xs, t)

/-- Modelled from the spec: decode a sequence as a u64 count prefix
followed by that many elements. -/
def consensus_decode_list {T : Type}
    (dec : List Nat → Except DecodeError (T × List Nat))
    (bs : List Nat) : Except DecodeError (List T × List Nat) := do
  let (n, r) ← consensus_decode_u64 bs
  consensus_decode_many dec n r

/-- Modelled from the spec: decode a public key as its 33 fixed
bytes. -/
def PubKey.consensus_decode (bs : List Nat) :
    Except DecodeError (PubKey × List Nat) :=
  readFixed 33 bs

/-- Modelled from the spec: decode a coin as its spend key. -/
def Coin.consensus_decode (bs : List Nat) :
    Except DecodeError (Coin × List Nat) := do
  let (k, t) ← PubKey.consensus_decode bs
  Except.ok (Coin.mk k, t)

/-- Modelled from the spec: decode a blind token as its 48 fixed
bytes. -/
def BlindToken.consensus_decode (bs : List Nat) :
    Except DecodeError (BlindToken × List Nat) := do
  let (m, t) ← readFixed 48 bs
  Except.ok (BlindToken.mk m, t)

/-- Modelled from the spec: decode one (tier, item) pair as the tier
value then the item. -/
def consensus_decode_tier_pair {T : Type}
    (dec : List Nat → Except DecodeError (T × List Nat))
    (bs : List Nat) : Except DecodeError ((Amount × T) × List Nat) := do
  let (a, r) ← consensus_decode_u64 bs
  let (x, t) ← dec r
  Except.ok ((a, x), t)

/-- Modelled from the spec: decode a tiered bundle as a sequence of
(tier, item) pairs. -/
def Coins.consensus_decode {T : Type}
    (dec : List Nat → Except DecodeError (T × List Nat))
    (bs : List Nat) : Except DecodeError (Coins T × List Nat) := do
  let (ps, t) ← consensus_decode_list (consensus_decode_tier_pair dec) bs
  Except.ok (Coins.mk ps, t)

/-- Modelled from the spec: decode a peg-in proof as the locked output
value then the tweaked contract key. -/
def PegInProof.consensus_decode (bs : List Nat) :
    Except DecodeError (PegInProof × List Nat) := do
  let (v, r) ← consensus_decode_u64 bs
  let (k, t) ← PubKey.consensus_decode r
  Except.ok (PegInProof.mk v k, t)

/-- Modelled from the spec: decode a script as a length prefix followed
by that many raw bytes. -/
def Script.consensus_decode (bs : List Nat) :
    Except DecodeError (Script × List Nat) := do
  let (n, r) ← consensus_decode_u64 bs
  let (raw, t) ← readBytes n r
  Except.ok (Script.mk raw, t)

/-- Modelled from the spec: decode a peg-out as the recipient script
then the satoshi amount. -/
def PegOut.consensus_decode (bs : List Nat) :
    Except DecodeError (PegOut × List Nat) := do
  let (s, r) ← Script.consensus_decode bs
  let (a, t) ← consensus_decode_u64 r
  Except.ok (PegOut.mk s a, t)

/-- Modelled from the spec: decode an input by its discriminant byte,
0x00 for Coins, 0x01 for PegIn, anything else a DecodeError. -/
def Input.consensus_decode (bs : List Nat) :
    Except DecodeError (Input × List Nat) :=
  match bs with
  | [] => Except.error DecodeError.truncated
  | b :: r =>
    if b = 0 then do
      let (c, t) ← Coins.consensus_decode Coin.consensus_decode r
      Except.ok (Input.coins c, t)
    else if b = 1 then do
      let (proof, t) ← PegInProof.consensus_decode r
      Except.ok (Input.pegIn proof, t)
    else Except.error DecodeError.badVariant

/-- Modelled from the spec: decode an output by its discriminant byte,
0x00 for Coins, 0x01 for PegOut, anything else a DecodeError. -/
def Output.consensus_decode (bs : List Nat) :
    Except DecodeError (Output × List Nat) :=
  match bs with
  | [] => Except.error DecodeError.truncated
  | b :: r =>
    if b = 0 then do
      let (c, t) ← Coins.consensus_decode BlindToken.consensus_decode r
      Except.ok (Output.coins c, t)
    else if b = 1 then do
      let (p, t) ← PegOut.consensus_decode r
      Except.ok (Output.pegOut p, t)
    else Except.error DecodeError.badVariant

/-- Modelled from the spec: decode a signature as its 64 fixed
bytes. -/
def Sig.consensus_decode (bs : List Nat) :
    Except DecodeError (Sig × List Nat) :=
  readFixed 64 bs

/-- Modelled from the spec: decode a transaction as its input sequence,
its output sequence and its signature. -/
def Transaction.consensus_decode (bs : List Nat) :
    Except DecodeError (Transaction × List Nat) := do
  let (inputs, r) ← consensus_decode_list Input.consensus_decode bs
  let (outputs, s) ← consensus_decode_list Output.consensus_decode r
  let (sig, t) ← Sig.consensus_decode s
  Except.ok (Transaction.mk inputs outputs sig, t)

/-! ## Constructibility

A value is constructible when every machine integer in it fits its Rust
width (u64/usize) , which is forced by the types in the source; the
model uses `Nat`, so the bounds are stated explicitly. -/

/-- Constructibility of a tiered bundle: the unit count and each tier
fit in a u64. -/
def Coins.constructible {T : Type} (cs : Coins T) : Prop :=
  cs.coins.length < 2 ^ 64 ∧ ∀ p ∈ cs.coins, p.1 < 2 ^ 64

instance {T : Type} (cs : Coins T) : Decidable cs.constructible := by
  unfold Coins.constructible
  infer_instance

/-- Constructibility of an input. -/
def Input.constructible : Input → Prop
  | .coins c => c.constructible
  | .pegIn proof => proof.txOutputValue < 2 ^ 64

instance (i : Input) : Decidable i.constructible := by
  cases i <;> (unfold Input.constructible; infer_instance)

/-- Constructibility of an output. -/
def Output.constructible : Output → Prop
  | .coins c => c.constructible
  | .pegOut p => p.recipient.raw.length < 2 ^ 64 ∧ p.amount < 2 ^ 64

instance (o : Output) : Decidable o.constructible := by
  cases o <;> (unfold Output.constructible; infer_instance)

/-- Constructibility of a transaction. -/
def Transaction.constructible (tx : Transaction) : Prop :=
  tx.inputs.length < 2 ^ 64 ∧ tx.outputs.length < 2 ^ 64
    ∧ (∀ i ∈ tx.inputs, i.constructible)
    ∧ (∀ o ∈ tx.outputs, o.constructible)

instance (tx : Transaction) : Decidable tx.constructible := by
  unfold Transaction.constructible
  infer_instance

/-! ## Concrete sample values (test fixtures) -/

/-- Sample public key fixture. -/
def samplePubKey : PubKey := ⟨List.replicate 33 2, by simp⟩

/-- Sample aggregate signature fixture. -/
def sampleSig : Sig := ⟨List.replicate 64 7, by simp⟩

/-- Second sample aggregate signature fixture, distinct from
`sampleSig`. -/
def sampleSig2 : Sig := ⟨List.replicate 64 9, by simp⟩

/-- Sample blinded message fixture. -/
def sampleBlindedMessage : BlindedMessage := ⟨List.replicate 48 3, by simp⟩

/-- Sample coin fixture. -/
def sampleCoin : Coin := Coin.mk samplePubKey

/-- Sample fee schedule fixture. -/
def sampleFee : FeeConsensus := FeeConsensus.mk 1 2 3

/-- Sample peg-in input fixture. -/
def sampleInputA : Input := Input.pegIn (PegInProof.mk 5 samplePubKey)

/-- Sample coins input fixture with one coin unit at tier 1. -/
def sampleInputB : Input := Input.coins (Coins.mk [(1, sampleCoin)])

/-- Sample peg-out output fixture. -/
def sampleOutput : Output := Output.pegOut (PegOut.mk (Script.mk [81, 82]) 4)

/-- Sample transaction fixture. -/
def sampleTx : Transaction :=
  Transaction.mk [sampleInputA] [sampleOutput] sampleSig

/-- An encoder is length-faithful when the usize it reports equals the
number of bytes it wrote. -/
def ReportsWritten {T : Type} (enc : T → List Nat × Nat) : Prop :=
  ∀ x, (enc x).2 = (enc x).1.length

/-! ## Helper lemmas -/

/-- The little-endian extraction of a `w`-byte integer has `w`
bytes. -/
theorem length_toLEBytes (w : Nat) : ∀ n : Nat, (toLEBytes w n).length = w := by
  induction w with
  | zero => intro n; rfl
  | succ w ih => intro n; simp [toLEBytes, ih]

/-- Recomposing the little-endian extraction recovers the value modulo
the width. -/
theorem fromLEBytes_toLEBytes (w : Nat) :
    ∀ n : Nat, fromLEBytes (toLEBytes w n) = n % 256 ^ w := by
  induction w with
  | zero => intro n; simp [toLEBytes, fromLEBytes, Nat.mod_one]
  | succ w ih =>
    intro n
    show n % 256 + 256 * fromLEBytes (toLEBytes w (n / 256)) = n % 256 ^ (w + 1)
    rw [ih, pow_succ, mul_comm (256 ^ w) 256, Nat.mod_mul]

/-- Reading back exactly the bytes that were put in front of a tail. -/
theorem readBytes_append (l r : List Nat) :
    readBytes l.length (l ++ r) = Except.ok (l, r) := by
  unfold readBytes
  rw [if_pos (by simp)]
  simp

/-- Reading back a fixed-size value put in front of a tail. -/
theorem readFixed_append (n : Nat) (l : { l : List Nat // l.length = n })
    (r : List Nat) : readFixed n (l.val ++ r) = Except.ok (l, r) := by
  obtain ⟨lv, hl⟩ := l
  subst hl
  unfold readFixed
  rw [dif_pos (by simp)]
  simp

/-- Round-trip for the fixed-width u64 encoding. -/
theorem consensus_decode_u64_round (n : Nat) (hn : n < 2 ^ 64)
    (r : List Nat) :
    consensus_decode_u64 ((consensus_encode_u64 n).1 ++ r)
      = Except.ok (n, r) := by
  have hread := readBytes_append (toLEBytes 8 n) r
  rw [length_toLEBytes] at hread
  have hval : fromLEBytes (toLEBytes 8 n) = n := by
    rw [fromLEBytes_toLEBytes]
    exact Nat.mod_eq_of_lt (by norm_num at hn ⊢; omega)
  simp [consensus_decode_u64, consensus_encode_u64, hread, hval,
    Except.instMonad, Except.bind]

/-- Round-trip for a fixed number of consecutive elements, given
element-wise round-trip. -/
theorem consensus_decode_many_round {T : Type} (enc : T → List Nat × Nat)
    (dec : List Nat → Except DecodeError (T × List Nat)) :
    ∀ (xs : List T) (r : List Nat),
      (∀ x ∈ xs, ∀ s, dec ((enc x).1 ++ s) = Except.ok (x, s)) →
      consensus_decode_many dec xs.length
          ((consensus_encode_each enc xs).1 ++ r)
        = Except.ok (xs, r) := by
  intro xs
  induction xs with
  | nil =>
    intro r hx
    simp [consensus_encode_each, consensus_decode_many]
  | cons x xs ih =>
    intro r hx
    have hx0 := hx x (by simp) ((consensus_encode_each enc xs).1 ++ r)
    have hrest := ih r (fun y hy s => hx y (by simp [hy]) s)
    simp [consensus_encode_each, consensus_decode_many, List.append_assoc,
      hx0, hrest, Except.instMonad, Except.bind]

/-- Round-trip for the count-prefixed sequence encoding, given
element-wise round-trip and a representable count. -/
theorem consensus_decode_list_round {T : Type} (enc : T → List Nat × Nat)
    (dec : List Nat → Except DecodeError (T × List Nat))
    (xs : List T) (r : List Nat) (hlen : xs.length < 2 ^ 64)
    (hx : ∀ x ∈ xs, ∀ s, dec ((enc x).1 ++ s) = Except.ok (x, s)) :
    consensus_decode_list dec ((consensus_encode_list enc xs).1 ++ r)
      = Except.ok (xs, r) := by
  have hcount := consensus_decode_u64_round xs.length hlen
    ((consensus_encode_each enc xs).1 ++ r)
  have hrest := consensus_decode_many_round enc dec xs r hx
  simp [consensus_encode_list, consensus_decode_list, List.append_assoc,
    hcount, hrest, Except.instMonad, Except.bind]

/-- Round-trip for the public key encoding. -/
theorem PubKey_consensus_decode_round (k : PubKey) (r : List Nat) :
    PubKey.consensus_decode ((PubKey.consensus_encode k).1 ++ r)
      = Except.ok (k, r) :=
  readFixed_append 33 k r

/-- Round-trip for the coin encoding. -/
theorem Coin_consensus_decode_round (c : Coin) (r : List Nat) :
    Coin.consensus_decode ((Coin.consensus_encode c).1 ++ r)
      = Except.ok (c, r) := by
  obtain ⟨k⟩ := c
  simp [Coin.consensus_decode, Coin.consensus_encode,
    PubKey_consensus_decode_round k r, Except.instMonad, Except.bind]

/-- Round-trip for the blind token encoding. -/
theorem BlindToken_consensus_decode_round (t : BlindToken) (r : List Nat) :
    BlindToken.consensus_decode ((BlindToken.consensus_encode t).1 ++ r)
      = Except.ok (t, r) := by
  obtain ⟨m⟩ := t
  simp [BlindToken.consensus_decode, BlindToken.consensus_encode,
    readFixed_append 48 m r, Except.instMonad, Except.bind]

/-- Round-trip for the tiered bundle encoding, given element-wise
round-trip for the items and a constructible bundle. -/
theorem Coins_consensus_decode_round {T : Type} (enc : T → List Nat × Nat)
    (dec : List Nat → Except DecodeError (T × List Nat))
    (cs : Coins T) (r : List Nat) (hc : cs.constructible)
    (hitem : ∀ x, ∀ s, dec ((enc x).1 ++ s) = Except.ok (x, s)) :
    Coins.consensus_decode dec ((Coins.consensus_encode enc cs).1 ++ r)
      = Except.ok (cs, r) := by
  obtain ⟨ps⟩ := cs
  obtain ⟨hlen, htier⟩ := hc
  have hpair : ∀ p ∈ ps, ∀ s,
      consensus_decode_tier_pair dec
          ((consensus_encode_tier_pair enc p).1 ++ s)
        = Except.ok (p, s) := by
    intro p hp s
    have ha := consensus_decode_u64_round p.1 (htier p hp) ((enc p.2).1 ++ s)
    have hi := hitem p.2 s
    simp [consensus_decode_tier_pair, consensus_encode_tier_pair,
      List.append_assoc, ha, hi, Except.instMonad, Except.bind]
  have hlist := consensus_decode_list_round (consensus_encode_tier_pair enc)
    (consensus_decode_tier_pair dec) ps r hlen hpair
  simp [Coins.consensus_decode, Coins.consensus_encode, hlist,
    Except.instMonad, Except.bind]

/-- Round-trip for the peg-in proof encoding. -/
theorem PegInProof_consensus_decode_round (p : PegInProof)
    (h : p.txOutputValue < 2 ^ 64) (r : List Nat) :
    PegInProof.consensus_decode ((PegInProof.consensus_encode p).1 ++ r)
      = Except.ok (p, r) := by
  obtain ⟨v, k⟩ := p
  have hv := consensus_decode_u64_round v h ((PubKey.consensus_encode k).1 ++ r)
  have hk := PubKey_consensus_decode_round k r
  simp [PegInProof.consensus_decode, PegInProof.consensus_encode,
    List.append_assoc, hv, hk, Except.instMonad, Except.bind]

/-- Round-trip for the script encoding. -/
theorem Script_consensus_decode_round (s : Script)
    (h : s.raw.length < 2 ^ 64) (r : List Nat) :
    Script.consensus_decode ((Script.consensus_encode s).1 ++ r)
      = Except.ok (s, r) := by
  obtain ⟨raw⟩ := s
  have hl := consensus_decode_u64_round raw.length h (raw ++ r)
  have hb := readBytes_append raw r
  simp [Script.consensus_decode, Script.consensus_encode,
    List.append_assoc, hl, hb, Except.instMonad, Except.bind]

/-- Round-trip for the peg-out encoding. -/
theorem PegOut_consensus_decode_round (p : PegOut)
    (h1 : p.recipient.raw.length < 2 ^ 64) (h2 : p.amount < 2 ^ 64)
    (r : List Nat) :
    PegOut.consensus_decode ((PegOut.consensus_encode p).1 ++ r)
      = Except.ok (p, r) := by
  obtain ⟨s, a⟩ := p
  have hs := Script_consensus_decode_round s h1 ((consensus_encode_u64 a).1 ++ r)
  have ha := consensus_decode_u64_round a h2 r
  simp [PegOut.consensus_decode, PegOut.consensus_encode,
    List.append_assoc, hs, ha, Except.instMonad, Except.bind]

/-- Round-trip for the input encoding. -/
theorem Input_consensus_decode_round (i : Input) (h : i.constructible)
    (r : List Nat) :
    Input.consensus_decode ((Input.consensus_encode i).1 ++ r)
      = Except.ok (i, r) := by
  cases i with
  | coins c =>
    have hc := Coins_consensus_decode_round Coin.consensus_encode
      Coin.consensus_decode c r h (fun x s => Coin_consensus_decode_round x s)
    simp [Input.consensus_encode, Input.consensus_decode, hc,
      Except.instMonad, Except.bind]
  | pegIn proof =>
    have hp := PegInProof_consensus_decode_round proof h r
    simp [Input.consensus_encode, Input.consensus_decode, hp,
      Except.instMonad, Except.bind]

/-- Round-trip for the output encoding. -/
theorem Output_consensus_decode_round (o : Output) (h : o.constructible)
    (r : List Nat) :
    Output.consensus_decode ((Output.consensus_encode o).1 ++ r)
      = Except.ok (o, r) := by
  cases o with
  | coins c =>
    have hc := Coins_consensus_decode_round BlindToken.consensus_encode
      BlindToken.consensus_decode c r h
      (fun x s => BlindToken_consensus_decode_round x s)
    simp [Output.consensus_encode, Output.consensus_decode, hc,
      Except.instMonad, Except.bind]
  | pegOut p =>
    have hp := PegOut_consensus_decode_round p h.1 h.2 r
    simp [Output.consensus_encode, Output.consensus_decode, hp,
      Except.instMonad, Except.bind]

/-- Round-trip for the signature encoding. -/
theorem Sig_consensus_decode_round (s : Sig) (r : List Nat) :
    Sig.consensus_decode ((Sig.consensus_encode s).1 ++ r)
      = Except.ok (s, r) :=
  readFixed_append 64 s r

/-- Round-trip for the transaction encoding. -/
theorem Transaction_consensus_decode_round (tx : Transaction)
    (h : tx.constructible) (r : List Nat) :
    Transaction.consensus_decode ((Transaction.consensus_encode tx).1 ++ r)
      = Except.ok (tx, r) := by
  obtain ⟨inputs, outputs, sig⟩ := tx
  obtain ⟨hi, ho, hci, hco⟩ := h
  have hins := consensus_decode_list_round Input.consensus_encode
    Input.consensus_decode inputs
    ((consensus_encode_list Output.consensus_encode outputs).1
      ++ ((Sig.consensus_encode sig).1 ++ r))
    hi (fun x hx s => Input_consensus_decode_round x (hci x hx) s)
  have houts := consensus_decode_list_round Output.consensus_encode
    Output.consensus_decode outputs ((Sig.consensus_encode sig).1 ++ r)
    ho (fun x hx s => Output_consensus_decode_round x (hco x hx) s)
  have hsig := Sig_consensus_decode_round sig r
  simp [Transaction.consensus_encode, Transaction.consensus_decode,
    List.append_assoc, hins, houts, hsig, Except.instMonad, Except.bind]

/-- The per-element encoding loop reports exactly the bytes it wrote
when each element encoder does. -/
theorem consensus_encode_each_reports {T : Type} (enc : T → List Nat × Nat)
    (h : ReportsWritten enc) :
    ∀ xs : List T, (consensus_encode_each enc xs).2
      = (consensus_encode_each enc xs).1.length := by
  intro xs
  induction xs with
  | nil => rfl
  | cons x xs ih =>
    simp [consensus_encode_each, List.length_append, h x, ih]

/-- The slice encoder reports exactly the bytes it wrote when each
element encoder does. -/
theorem consensus_encode_list_reports {T : Type} (enc : T → List Nat × Nat)
    (h : ReportsWritten enc) (xs : List T) :
    (consensus_encode_list enc xs).2
      = (consensus_encode_list enc xs).1.length := by
  simp [consensus_encode_list, consensus_encode_u64, List.length_append,
    consensus_encode_each_reports enc h]

/-- The public key encoder reports exactly the bytes it wrote. -/
theorem PubKey_consensus_encode_reports : ReportsWritten PubKey.consensus_encode :=
  fun _ => rfl

/-- The coin encoder reports exactly the bytes it wrote. -/
theorem Coin_consensus_encode_reports : ReportsWritten Coin.consensus_encode :=
  fun _ => rfl

/-- The blind token encoder reports exactly the bytes it wrote. -/
theorem BlindToken_consensus_encode_reports :
    ReportsWritten BlindToken.consensus_encode := by
  intro t
  simp [BlindToken.consensus_encode, t.msg.prop]

/-- The tier pair encoder reports exactly the bytes it wrote when the
item encoder does. -/
theorem consensus_encode_tier_pair_reports {T : Type}
    (enc : T → List Nat × Nat) (h : ReportsWritten enc) :
    ReportsWritten (consensus_encode_tier_pair enc) := by
  intro p
  simp [consensus_encode_tier_pair, consensus_encode_u64,
    List.length_append, h p.2]

/-- The tiered bundle encoder reports exactly the bytes it wrote when
the item encoder does. -/
theorem Coins_consensus_encode_reports {T : Type}
    (enc : T → List Nat × Nat) (h : ReportsWritten enc) :
    ReportsWritten (Coins.consensus_encode enc) := by
  intro cs
  exact consensus_encode_list_reports (consensus_encode_tier_pair enc)
    (consensus_encode_tier_pair_reports enc h) cs.coins

/-- The peg-in proof encoder reports exactly the bytes it wrote. -/
theorem PegInProof_consensus_encode_reports :
    ReportsWritten PegInProof.consensus_encode := by
  intro p
  simp [PegInProof.consensus_encode, PubKey.consensus_encode,
    consensus_encode_u64, List.length_append]

/-- The script encoder reports exactly the bytes it wrote. -/
theorem Script_consensus_encode_reports :
    ReportsWritten Script.consensus_encode := by
  intro s
  simp [Script.consensus_encode, consensus_encode_u64, List.length_append]

/-- The peg-out encoder reports exactly the bytes it wrote. -/
theorem PegOut_consensus_encode_reports :
    ReportsWritten PegOut.consensus_encode := by
  intro p
  simp [PegOut.consensus_encode, consensus_encode_u64, List.length_append,
    Script_consensus_encode_reports p.recipient]

/-- The input encoder reports exactly the bytes it wrote. -/
theorem Input_consensus_encode_reports :
    ReportsWritten Input.consensus_encode := by
  intro i
  cases i with
  | coins c =>
    simp [Input.consensus_encode,
      Coins_consensus_encode_reports Coin.consensus_encode
        Coin_consensus_encode_reports c]
  | pegIn proof =>
    simp [Input.consensus_encode, PegInProof_consensus_encode_reports proof]

/-- The output encoder reports exactly the bytes it wrote. -/
theorem Output_consensus_encode_reports :
    ReportsWritten Output.consensus_encode := by
  intro o
  cases o with
  | coins c =>
    simp [Output.consensus_encode,
      Coins_consensus_encode_reports BlindToken.consensus_encode
        BlindToken_consensus_encode_reports c]
  | pegOut p =>
    simp [Output.consensus_encode, PegOut_consensus_encode_reports p]

/-- The signature encoder reports exactly the bytes it wrote. -/
theorem Sig_consensus_encode_reports : ReportsWritten Sig.consensus_encode :=
  fun _ => rfl

/-- The transaction encoder reports exactly the bytes it wrote. -/
theorem Transaction_consensus_encode_reports :
    ReportsWritten Transaction.consensus_encode := by
  intro tx
  simp [Transaction.consensus_encode, List.length_append,
    consensus_encode_list_reports Input.consensus_encode
      Input_consensus_encode_reports tx.inputs,
    consensus_encode_list_reports Output.consensus_encode
      Output_consensus_encode_reports tx.outputs,
    Sig_consensus_encode_reports tx.signature, Nat.add_assoc]

/-- The per-element encoding loop writes the concatenation of the
element encodings in order. -/
theorem consensus_encode_each_bytes {T : Type} (enc : T → List Nat × Nat) :
    ∀ xs : List T, (consensus_encode_each enc xs).1
      = (xs.map (fun x => (enc x).1)).flatten := by
  intro xs
  induction xs with
  | nil => rfl
  | cons x xs ih => simp [consensus_encode_each, ih]

/-! ## Claims -/

/-- C1: for every transaction and fee schedule, validate_funding
returns Ok exactly when the sum of input amounts is at least the sum of
output amounts plus the sum of all input and output fees (equality and
strict surplus both accepted), and otherwise returns
InsufficientlyFunded carrying exactly those three computed sums. -/
theorem claim_C1_validate_funding_iff (tx : Transaction)
    (fee_consensus : FeeConsensus) :
    (tx.validate_funding fee_consensus = Except.ok () ↔
      (tx.outputs.map Output.amount).sum
          + ((tx.inputs.map (fun i => i.fee fee_consensus)).sum
            + (tx.outputs.map (fun o => o.fee fee_consensus)).sum)
        ≤ (tx.inputs.map Input.amount).sum)
    ∧ (tx.validate_funding fee_consensus
        = Except.error (TransactionError.insufficientlyFunded
            (tx.inputs.map Input.amount).sum
            (tx.outputs.map Output.amount).sum
            ((tx.inputs.map (fun i => i.fee fee_consensus)).sum
              + (tx.outputs.map (fun o => o.fee fee_consensus)).sum)) ↔
      ¬ ((tx.outputs.map Output.amount).sum
          + ((tx.inputs.map (fun i => i.fee fee_consensus)).sum
            + (tx.outputs.map (fun o => o.fee fee_consensus)).sum)
        ≤ (tx.inputs.map Input.amount).sum)) := by
  simp only [Transaction.validate_funding]
  split
  case isTrue h => constructor <;> simp [h]
  case isFalse h => constructor <;> simp [h]

/-- C2: validate_signature derives the authorization keys per input in
order, Coins inputs contributing every spend key of the bundle and
PegIn inputs the single tweaked contract key, then accepts exactly when
the external verify capability accepts the aggregate signature against
the transaction hash and that key set, rejecting with the detail-free
InvalidSignature otherwise. -/
theorem claim_C2_validate_signature
    (verify : List Nat → Sig → List PubKey → Bool) (tx : Transaction) :
    (Transaction.validate_signature verify tx = Except.ok () ↔
      verify tx.tx_hash.stream tx.signature
        ((tx.inputs.map Input.authorization_keys).flatten) = true)
    ∧ (Transaction.validate_signature verify tx
        = Except.error TransactionError.invalidSignature ↔
      verify tx.tx_hash.stream tx.signature
        ((tx.inputs.map Input.authorization_keys).flatten) = false)
    ∧ (∀ c : Coins Coin, Input.authorization_keys (Input.coins c)
        = c.coins.map (fun p => p.2.spendKey))
    ∧ (∀ proof : PegInProof, Input.authorization_keys (Input.pegIn proof)
        = [proof.tweakContractKey]) := by
  refine ⟨?_, ?_, fun _ => rfl, fun _ => rfl⟩ <;>
  · simp only [Transaction.validate_signature]
    cases hv : verify tx.tx_hash.stream tx.signature
      ((tx.inputs.map Input.authorization_keys).flatten) <;> simp [hv]

/-- C3: tx_hash equals tx_hash_from_parts on the transaction inputs and
outputs, which feeds the canonical encoding of the input sequence and
then the output sequence into the hash engine, so the signature field
never contributes and two transactions with the same inputs and outputs
share a TransactionId. -/
theorem claim_C3_tx_hash_ignores_signature (tx : Transaction) :
    tx.tx_hash = Transaction.tx_hash_from_parts tx.inputs tx.outputs
    ∧ (∀ (inputs : List Input) (outputs : List Output),
        Transaction.tx_hash_from_parts inputs outputs
          = TransactionId.mk
              ((consensus_encode_list Input.consensus_encode inputs).1
                ++ (consensus_encode_list Output.consensus_encode outputs).1))
    ∧ (∀ s₁ s₂ : Sig,
        Transaction.tx_hash (Transaction.mk tx.inputs tx.outputs s₁)
          = Transaction.tx_hash (Transaction.mk tx.inputs tx.outputs s₂)) :=
  ⟨rfl, fun _ _ => rfl, fun _ _ => rfl⟩

/-- C4: the fee of a Coins input or output is the per-coin-spend fee
times the number of coin units in the bundle, the fee of a PegIn input
is the flat peg-in fee, and the fee of a PegOut output is the flat
peg-out fee. -/
theorem claim_C4_fee_schedule (fee_consensus : FeeConsensus) :
    (∀ c : Coins Coin, Input.fee (Input.coins c) fee_consensus
        = fee_consensus.fee_coin_spend_abs * c.coins.length)
    ∧ (∀ proof : PegInProof, Input.fee (Input.pegIn proof) fee_consensus
        = fee_consensus.fee_peg_in_abs)
    ∧ (∀ c : Coins BlindToken, Output.fee (Output.coins c) fee_consensus
        = fee_consensus.fee_coin_spend_abs * c.coins.length)
    ∧ (∀ p : PegOut, Output.fee (Output.pegOut p) fee_consensus
        = fee_consensus.fee_peg_out_abs) :=
  ⟨fun _ => rfl, fun _ => rfl, fun _ => rfl, fun _ => rfl⟩

/-- C5: decoding the canonical encoding of a constructible value (with
any trailing bytes) yields the value back, for the primitive u64, for
inputs, outputs and transactions. -/
theorem claim_C5_roundtrip (n : Nat) (i : Input) (o : Output)
    (tx : Transaction) (r : List Nat) (hn : n < 2 ^ 64)
    (hi : i.constructible) (ho : o.constructible)
    (htx : tx.constructible) :
    consensus_decode_u64 ((consensus_encode_u64 n).1 ++ r)
        = Except.ok (n, r)
    ∧ Input.consensus_decode ((Input.consensus_encode i).1 ++ r)
        = Except.ok (i, r)
    ∧ Output.consensus_decode ((Output.consensus_encode o).1 ++ r)
        = Except.ok (o, r)
    ∧ Transaction.consensus_decode ((Transaction.consensus_encode tx).1 ++ r)
        = Except.ok (tx, r) :=
  ⟨consensus_decode_u64_round n hn r,
   Input_consensus_decode_round i hi r,
   Output_consensus_decode_round o ho r,
   Transaction_consensus_decode_round tx htx r⟩

/-- Witness for C5 at concrete constructible values. -/
theorem claim_C5_roundtrip_witness :
    ((5 : Nat) < 2 ^ 64 ∧ sampleInputB.constructible
      ∧ sampleOutput.constructible ∧ sampleTx.constructible)
    ∧ (consensus_decode_u64 ((consensus_encode_u64 5).1 ++ [9])
          = Except.ok (5, [9])
      ∧ Input.consensus_decode ((Input.consensus_encode sampleInputB).1 ++ [9])
          = Except.ok (sampleInputB, [9])
      ∧ Output.consensus_decode ((Output.consensus_encode sampleOutput).1 ++ [9])
          = Except.ok (sampleOutput, [9])
      ∧ Transaction.consensus_decode ((Transaction.consensus_encode sampleTx).1 ++ [9])
          = Except.ok (sampleTx, [9])) :=
  ⟨⟨by decide, by decide, by decide, by decide⟩,
   claim_C5_roundtrip 5 sampleInputB sampleOutput sampleTx [9]
     (by decide) (by decide) (by decide) (by decide)⟩

/-- C6: the input encoder writes one discriminant byte (0x00 for Coins,
0x01 for PegIn) followed by the encoding of the variant payload, and
likewise the output encoder (0x00 for Coins, 0x01 for PegOut). -/
theorem claim_C6_discriminant_bytes :
    (∀ c : Coins Coin, Input.consensus_encode (Input.coins c)
        = (0 :: (Coins.consensus_encode Coin.consensus_encode c).1,
           (Coins.consensus_encode Coin.consensus_encode c).2 + 1))
    ∧ (∀ proof : PegInProof, Input.consensus_encode (Input.pegIn proof)
        = (1 :: (PegInProof.consensus_encode proof).1,
           (PegInProof.consensus_encode proof).2 + 1))
    ∧ (∀ c : Coins BlindToken, Output.consensus_encode (Output.coins c)
        = (0 :: (Coins.consensus_encode BlindToken.consensus_encode c).1,
           (Coins.consensus_encode BlindToken.consensus_encode c).2 + 1))
    ∧ (∀ p : PegOut, Output.consensus_encode (Output.pegOut p)
        = (1 :: (PegOut.consensus_encode p).1,
           (PegOut.consensus_encode p).2 + 1)) :=
  ⟨fun _ => rfl, fun _ => rfl, fun _ => rfl, fun _ => rfl⟩

/-- C7: every encoder reports exactly the number of bytes it wrote; in
particular the BlindToken encoder reports 48 and writes exactly the 48
bytes of the compressed blinded message. -/
theorem claim_C7_reported_equals_written :
    (∀ n : Nat, (consensus_encode_u64 n).2
        = (consensus_encode_u64 n).1.length)
    ∧ (∀ t : BlindToken, (BlindToken.consensus_encode t).2 = 48
        ∧ (BlindToken.consensus_encode t).1.length = 48)
    ∧ (∀ i : Input, (Input.consensus_encode i).2
        = (Input.consensus_encode i).1.length)
    ∧ (∀ o : Output, (Output.consensus_encode o).2
        = (Output.consensus_encode o).1.length)
    ∧ (∀ p : PegOut, (PegOut.consensus_encode p).2
        = (PegOut.consensus_encode p).1.length)
    ∧ (∀ proof : PegInProof, (PegInProof.consensus_encode proof).2
        = (PegInProof.consensus_encode proof).1.length)
    ∧ (∀ xs : List Input, (consensus_encode_list Input.consensus_encode xs).2
        = (consensus_encode_list Input.consensus_encode xs).1.length)
    ∧ (∀ xs : List Output, (consensus_encode_list Output.consensus_encode xs).2
        = (consensus_encode_list Output.consensus_encode xs).1.length)
    ∧ (∀ tx : Transaction, (Transaction.consensus_encode tx).2
        = (Transaction.consensus_encode tx).1.length) :=
  ⟨fun _ => rfl,
   fun t => ⟨rfl, t.msg.prop⟩,
   Input_consensus_encode_reports,
   Output_consensus_encode_reports,
   PegOut_consensus_encode_reports,
   PegInProof_consensus_encode_reports,
   fun xs => consensus_encode_list_reports Input.consensus_encode
     Input_consensus_encode_reports xs,
   fun xs => consensus_encode_list_reports Output.consensus_encode
     Output_consensus_encode_reports xs,
   Transaction_consensus_encode_reports⟩

/-- C8: the u64 encoder writes exactly the eight little-endian bytes of
its value, and the slice encoder writes the item count as a u64
followed by each item encoding concatenated in slice order. -/
theorem claim_C8_wire_format :
    (∀ n : Nat, (consensus_encode_u64 n).1
        = [n % 256, n / 256 % 256, n / 256 ^ 2 % 256, n / 256 ^ 3 % 256,
           n / 256 ^ 4 % 256, n / 256 ^ 5 % 256, n / 256 ^ 6 % 256,
           n / 256 ^ 7 % 256])
    ∧ (∀ (T : Type) (enc : T → List Nat × Nat) (xs : List T),
        (consensus_encode_list enc xs).1
          = (consensus_encode_u64 xs.length).1
            ++ (xs.map (fun x => (enc x).1)).flatten) := by
  constructor
  · intro n
    simp [consensus_encode_u64, toLEBytes, Nat.div_div_eq_div_mul]
  · intro T enc xs
    simp [consensus_encode_list, consensus_encode_each_bytes]

/-- C9: a transaction with no inputs and no outputs passes funding
validation for every fee schedule, all three sums being zero. -/
theorem claim_C9_empty_transaction_funded (fee_consensus : FeeConsensus)
    (s : Sig) :
    Transaction.validate_funding (Transaction.mk [] [] s) fee_consensus
      = Except.ok () := rfl

/-- C10: the result of validate_funding is invariant under any
permutation of the inputs and any permutation of the outputs (and does
not depend on the signature): acceptance never changes and on rejection
the three reported sums are unchanged. -/
theorem claim_C10_validate_funding_permutation
    (inputs₁ inputs₂ : List Input) (outputs₁ outputs₂ : List Output)
    (s₁ s₂ : Sig) (fee_consensus : FeeConsensus)
    (hi : inputs₁.Perm inputs₂) (ho : outputs₁.Perm outputs₂) :
    Transaction.validate_funding (Transaction.mk inputs₁ outputs₁ s₁)
        fee_consensus
      = Transaction.validate_funding (Transaction.mk inputs₂ outputs₂ s₂)
        fee_consensus := by
  simp only [Transaction.validate_funding]
  rw [(hi.map Input.amount).sum_eq, (ho.map Output.amount).sum_eq,
    (hi.map (fun i => i.fee fee_consensus)).sum_eq,
    (ho.map (fun o => o.fee fee_consensus)).sum_eq]

/-- Witness for C10 on a concrete two-element permutation. -/
theorem claim_C10_validate_funding_permutation_witness :
    [sampleInputA, sampleInputB].Perm [sampleInputB, sampleInputA]
    ∧ Transaction.validate_funding
        (Transaction.mk [sampleInputA, sampleInputB] [sampleOutput] sampleSig)
        sampleFee
      = Transaction.validate_funding
        (Transaction.mk [sampleInputB, sampleInputA] [sampleOutput] sampleSig2)
        sampleFee :=
  ⟨List.Perm.swap sampleInputB sampleInputA [],
   claim_C10_validate_funding_permutation
     [sampleInputA, sampleInputB] [sampleInputB, sampleInputA]
     [sampleOutput] [sampleOutput] sampleSig sampleSig2 sampleFee
     (List.Perm.swap sampleInputB sampleInputA [])
     (List.Perm.refl [sampleOutput])⟩

end Fedimint
